import Mathlib

/-!
# Verification of the BFGS and Newton descent-direction strategies

This file embeds, in exact rational arithmetic, the two direction-finding
strategies of the `optimize` package: the BFGS quasi-Newton strategy
(`bfgs.go`: `BFGS.InitDirection`, `BFGS.NextDirection`) and the modified
Newton strategy (`newton.go`: `Newton.Init`, `Newton.InitDirection`,
`Newton.NextDirection`), together with the `mat64`/`floats` linear-algebra
primitives they call.

Modelling conventions:
* `float64` scalars are modelled as `ℚ` (exact arithmetic); the only
  genuinely irrational quantity, the Euclidean norm used for the initial
  BFGS step scale, is modelled in `ℝ` via `Real.sqrt`.
* A Go `panic` (explicit, or raised inside a `mat64` primitive on an
  out-of-range index / shape mismatch) is modelled as `Option.none`; a
  normal return is `Option.some`.
* `mat64.SymDense` scratch matrices, whose size can differ from the
  dimension of a later `Location`, are modelled by `SymQ`: a size together
  with an entry function.  In-range reads/writes use the entry function;
  out-of-range accesses are the `none` (panic) cases of the operations.
* Exact-arithmetic Cholesky factorization of a symmetric matrix succeeds
  if and only if the matrix is positive definite, i.e. iff all leading
  principal minors are positive (Sylvester's criterion); `choleskyOk`
  decides that criterion with an executable cofactor-expansion
  determinant `detFn`.  `SolveCholeskyVec`, which returns the exact
  solution of `hess · d = b`, is modelled by the adjugate formula
  `d = det⁻¹ · adj(hess) · b` (`cholSolve`).
-/

attribute [local semireducible] Rat.add Rat.mul Rat.inv Rat.sub

/-- The fields of a `Location` read by the BFGS strategy: position `X` and
`Gradient`, both of dimension `n`. -/
structure LocB (n : ℕ) where
  X : Fin n → ℚ
  Gradient : Fin n → ℚ

/-- The internal state of the `BFGS` struct that `InitDirection` /
`NextDirection` read and write: cached previous position `x` and gradient
`grad`, the inverse-Hessian approximation `invHess`, and the `first` flag.
The established dimension is the type index `n`. -/
structure BFGSState (n : ℕ) where
  x : Fin n → ℚ
  grad : Fin n → ℚ
  invHess : Matrix (Fin n) (Fin n) ℚ
  first : Bool

/-- `mat64.SymDense.RankTwo(a, alpha, x, y)`: the symmetric rank-two update
`a + alpha * (x yᵀ + y xᵀ)`. -/
def rankTwo {n : ℕ} (a : Matrix (Fin n) (Fin n) ℚ) (alpha : ℚ) (x y : Fin n → ℚ) :
    Matrix (Fin n) (Fin n) ℚ :=
  Matrix.of fun i j => a i j + alpha * (x i * y j + y i * x j)

/-- `mat64.SymDense.SymRankOne(a, alpha, x)`: the symmetric rank-one update
`a + alpha * x xᵀ`. -/
def symRankOne {n : ℕ} (a : Matrix (Fin n) (Fin n) ℚ) (alpha : ℚ) (x : Fin n → ℚ) :
    Matrix (Fin n) (Fin n) ℚ :=
  Matrix.of fun i j => a i j + alpha * (x i * x j)

/-- `mat64.Inner(x, a, y) = xᵀ a y`. -/
def matInner {n : ℕ} (x : Fin n → ℚ) (a : Matrix (Fin n) (Fin n) ℚ) (y : Fin n → ℚ) : ℚ :=
  Matrix.dotProduct x (a.mulVec y)

/-- Sum of squares of a vector (the radicand of `floats.Norm(v, 2)`). -/
def sumSq {n : ℕ} (v : Fin n → ℚ) : ℚ := ∑ i, v i * v i

/-- `floats.Norm(v, 2)`: the Euclidean norm, in `ℝ`. -/
noncomputable def norm2 {n : ℕ} (v : Fin n → ℚ) : ℝ :=
  Real.sqrt ((sumSq v : ℚ) : ℝ)

/-- `BFGS.InitDirection` (`bfgs.go`): resizes the internal buffers to
`dim = len(loc.X)`, copies position and gradient into the cache, writes
`dir = -gradient` (`copy` then `floats.Scale(-1, dir)`), sets `first`, and
returns `1 / floats.Norm(dir, 2)`.  The `invHess` storage is allocated but
its values are only initialized in the first `NextDirection` call; a fresh
zero matrix models the freshly allocated storage.  The returned triple is
(new state, written direction buffer, returned step size). -/
noncomputable def bfgsInitDirection {n : ℕ} (loc : LocB n) :
    BFGSState n × (Fin n → ℚ) × ℝ :=
  let dir := fun i => -loc.Gradient i
  (⟨loc.X, loc.Gradient, 0, true⟩, dir, 1 / norm2 dir)

/-- `BFGS.NextDirection` (`bfgs.go`), after its three dimension checks have
passed (the checks themselves are `bfgsNextDirectionChecked` below):
computes `y = Gradient - grad`, `s = X - x`, on the first call overwrites
`invHess` with the scaled identity `((s·y)/(y·y)) I`, applies the rank-two
update with coefficient `-1/(s·y)` on `t = invHess·y` and `s`, then the
rank-one update with coefficient `((s·y) + yᵀ invHess y)/(s·y)²` on `s`,
caches the location, and returns `dir = -(invHess · Gradient)` with step
size 1. -/
def bfgsNextDirection {n : ℕ} (b : BFGSState n) (loc : LocB n) :
    BFGSState n × (Fin n → ℚ) × ℚ :=
  let y := fun i => loc.Gradient i - b.grad i
  let s := fun i => loc.X i - b.x i
  let sDotY := Matrix.dotProduct s y
  let sDotYSquared := sDotY * sDotY
  let h0 : Matrix (Fin n) (Fin n) ℚ :=
    if b.first then
      Matrix.of fun i j => if i = j then sDotY / Matrix.dotProduct y y else 0
    else b.invHess
  let yBy := matInner y h0 y
  let firstTermConst := (sDotY + yBy) / sDotYSquared
  let t := h0.mulVec y
  let h1 := rankTwo h0 (-1 / sDotY) t s
  let h2 := symRankOne h1 firstTermConst s
  let dir := fun i => -(h2.mulVec loc.Gradient i)
  (⟨loc.X, loc.Gradient, h2, false⟩, dir, 1)

/-- A BFGS state together with its established dimension, for calls whose
buffer lengths may disagree with that dimension. -/
structure BFGSL where
  dim : ℕ
  state : BFGSState dim

/-- The full `BFGS.NextDirection` entry point (`bfgs.go` lines 93–102 and
following): it panics (`none`) unless `len(loc.X)`, `len(loc.Gradient)` and
`len(dir)` all equal the established dimension `b.dim`, and otherwise
delegates to `bfgsNextDirection`. -/
def bfgsNextDirectionChecked (b : BFGSL) (x g dirBuf : List ℚ) :
    Option (BFGSL × List ℚ × ℚ) :=
  if hx : x.length = b.dim then
    if hg : g.length = b.dim then
      if dirBuf.length = b.dim then
        let r := bfgsNextDirection b.state
          ⟨fun i => x.get (Fin.cast hx.symm i), fun i => g.get (Fin.cast hg.symm i)⟩
        some (⟨b.dim, r.1⟩, List.ofFn r.2.1, r.2.2)
      else none
    else none
  else none

/-- The spec's standard BFGS inverse-Hessian update formula, stated from
the spec's words (for the refinement claim): `B − (B y sᵀ + s yᵀ B)/sᵀy +
(1 + yᵀ B y/sᵀy)(s sᵀ)/sᵀy`. -/
def bfgsSpecUpdate {n : ℕ} (b : Matrix (Fin n) (Fin n) ℚ) (s y : Fin n → ℚ) :
    Matrix (Fin n) (Fin n) ℚ :=
  b - (1 / Matrix.dotProduct s y) • (Matrix.vecMulVec (b.mulVec y) s + Matrix.vecMulVec s (Matrix.vecMul y b))
    + ((1 + matInner y b y / Matrix.dotProduct s y) * (1 / Matrix.dotProduct s y)) • Matrix.vecMulVec s s

/-- A `mat64.SymDense` scratch matrix: a size and an entry function
(meaningful at indices below `dim`). -/
structure SymQ where
  dim : ℕ
  entry : ℕ → ℕ → ℚ

/-- `mat64.SymDense.CopySym(dst, src)`: overwrites the leading
`min(dst.dim, src.dim)` block of `dst` with `src`, leaving the rest of
`dst` untouched.  Never panics. -/
def copySym (dst src : SymQ) : SymQ :=
  ⟨dst.dim, fun i j =>
    if i < min dst.dim src.dim ∧ j < min dst.dim src.dim then src.entry i j
    else dst.entry i j⟩

/-- The minimum-diagonal scan of `Newton.NextDirection` (`newton.go`):
`minA := hess.At(0,0); for i := 1; i < dim; i++ { ... }` over the scratch
matrix `m`.  `mat64.At` panics on an out-of-range index, so the scan
panics (`none`) iff `m.dim = 0` (the initial read) or `2 ≤ dim` and
`m.dim < dim` (the loop reads up to index `dim - 1`).  Otherwise it
returns the minimum of the first `dim` diagonal entries, seeded with
`m.entry 0 0`. -/
def minDiagGo (m : SymQ) (dim : ℕ) : Option ℚ :=
  if 0 < m.dim ∧ (dim ≤ m.dim ∨ dim ≤ 1) then
    some (((List.range dim).map fun i => m.entry i i).foldl min (m.entry 0 0))
  else none

/-- The diagonal-overwrite loop of `Newton.NextDirection`:
`for i := 0; i < dim; i++ { hess.SetSym(i, i, loc.Hessian.At(i,i) + tau) }`.
`At` panics if `dim > h.dim` and `SetSym` panics if `dim > hess.dim`; the
partial writes before a panic are unobservable (the process dies), so the
result is `none` exactly when either bound fails, and otherwise the scratch
with its first `dim` diagonal entries overwritten by `h.entry i i + tau`. -/
def setDiagGo (hess h : SymQ) (dim : ℕ) (tau : ℚ) : Option SymQ :=
  if dim ≤ h.dim ∧ dim ≤ hess.dim then
    some ⟨hess.dim, fun i j =>
      if i = j ∧ i < dim then h.entry i i + tau else hess.entry i j⟩
  else none

/-- First-row-deleted, column-`j`-deleted minor of an entry function. -/
def minorFn (e : ℕ → ℕ → ℚ) (j : ℕ) : ℕ → ℕ → ℚ :=
  fun a b => e (a + 1) (if b < j then b else b + 1)

/-- Executable determinant of the leading `d × d` block of an entry
function, by cofactor expansion along the first row. -/
def detFn (e : ℕ → ℕ → ℚ) : ℕ → ℚ
  | 0 => 1
  | d + 1 => ∑ j in Finset.range (d + 1), (-1) ^ j * e 0 j * detFn (minorFn e j) d

/-- `mat64.TriDense.Cholesky(hess, true)`: in exact arithmetic the
factorization of the full stored matrix succeeds iff the matrix is
positive definite, i.e. iff every leading principal minor is positive
(Sylvester's criterion). -/
def choleskyOk (m : SymQ) : Bool :=
  decide (∀ k : Fin m.dim, 0 < detFn m.entry (k + 1))

/-- The stored matrix of a scratch `SymQ`, as a Mathlib matrix. -/
def toMat (m : SymQ) : Matrix (Fin m.dim) (Fin m.dim) ℚ :=
  Matrix.of fun i j => m.entry i j

/-- `mat64.Vector.SolveCholeskyVec(chol, b)`: the exact solution of
`m · d = b`, in adjugate form `d = det(m)⁻¹ · adj(m) · b`. -/
def cholSolve (m : SymQ) (b : List ℚ) : List ℚ :=
  List.ofFn fun i : Fin m.dim =>
    (toMat m).det⁻¹ * (toMat m).adjugate.mulVec (fun j => b.getD j 0) i

/-- Go's `copy(dst, src)`: overwrite the first `min(len(dst), len(src))`
elements of `dst` with `src`, keeping the rest of `dst`. -/
def copyInto (dst src : List ℚ) : List ℚ :=
  src.take dst.length ++ dst.drop src.length

/-- The regularizer seeding at the top of `Newton.NextDirection`
(`newton.go` lines 108–112): if the smallest diagonal entry is positive,
`tau = 0`; otherwise, if `tau` is still 0, `tau = -minA + 0.001`; otherwise
`tau` keeps its value from the previous iteration. -/
def seedTau (tau minA : ℚ) : ℚ :=
  if 0 < minA then 0 else if tau = 0 then -minA + 1 / 1000 else tau

/-- The two ways `Newton.NextDirection` can return: `solved` from a
successful Cholesky factorization (carrying the `tau` current at that
attempt), or `fallback` after exhausting all attempts (steepest descent).
Both carry the written direction buffer and the returned step size. -/
inductive NewtonOut where
  | solved (tau : ℚ) (dir : List ℚ) (stepScale : ℚ)
  | fallback (tau : ℚ) (dir : List ℚ) (stepScale : ℚ)
deriving DecidableEq

/-- Whether a `NewtonOut` came from the successful-factorization path. -/
def NewtonOut.isSolved : NewtonOut → Bool
  | .solved _ _ _ => true
  | .fallback _ _ _ => false

/-- The `tau` recorded in a `NewtonOut`. -/
def NewtonOut.stepTau : NewtonOut → ℚ
  | .solved tau _ _ => tau
  | .fallback tau _ _ => tau

/-- The direction buffer recorded in a `NewtonOut`. -/
def NewtonOut.dirOf : NewtonOut → List ℚ
  | .solved _ dir _ => dir
  | .fallback _ dir _ => dir

/-- The step size recorded in a `NewtonOut`. -/
def NewtonOut.scaleOf : NewtonOut → ℚ
  | .solved _ _ sc => sc
  | .fallback _ _ sc => sc

/-- `maxNewtonModifications` (`newton.go`). -/
def maxNewtonModifications : ℕ := 20

/-- The retry loop of `Newton.NextDirection` (`newton.go` lines 114–138),
with the remaining attempt count as fuel.  Each attempt: if `tau ≠ 0`,
overwrite the scratch diagonal with `loc.Hessian.At(i,i) + tau` (recomputed
from the original Hessian `h`); try the Cholesky factorization of the full
scratch; on success build `d := mat64.NewVector(dim, dir)` (which panics
unless `len(dir) = dim`), `mat64.NewVector(dim, loc.Gradient)` (likewise),
solve (which panics unless the factor's size equals `dim`), negate, and
return step size 1; on failure set `tau = max(Increase·tau, 0.001)` and
retry.  With fuel exhausted: `copy(dir, loc.Gradient)`, negate the whole
buffer, and return step size 1.  The result carries the final scratch
matrix and final `tau` (the fields written back into the `Newton` state). -/
def newtonLoop (inc : ℚ) (h : SymQ) (dim : ℕ) (g dirBuf : List ℚ) :
    SymQ → ℚ → ℕ → Option (SymQ × ℚ × NewtonOut)
  | hess, tau, 0 =>
      some (hess, tau, .fallback tau ((copyInto dirBuf g).map fun v => -v) 1)
  | hess, tau, fuel + 1 =>
      match (if tau = 0 then some hess else setDiagGo hess h dim tau) with
      | none => none
      | some hess1 =>
          if choleskyOk hess1 then
            if dirBuf.length = dim ∧ g.length = dim ∧ hess1.dim = dim then
              some (hess1, tau, .solved tau ((cholSolve hess1 g).map fun v => -v) 1)
            else none
          else
            newtonLoop inc h dim g dirBuf hess1 (max (inc * tau) (1 / 1000)) fuel

/-- The fields of a `Location` read by the Newton strategy. -/
structure LocN where
  X : List ℚ
  Gradient : List ℚ
  Hessian : SymQ

/-- The internal state of the `Newton` struct used by `InitDirection` /
`NextDirection`: the configured `Increase` factor, the scratch Hessian
copy `hess`, and the regularizer `tau` carried across iterations.  (The
Cholesky-factor scratch `chol` always has the same size as `hess` — both
are resized together in `InitDirection` — so it is not modelled
separately.) -/
structure Newton where
  Increase : ℚ
  hess : SymQ
  tau : ℚ

/-- `Newton.NextDirection` (`newton.go` lines 88–139): copy the Hessian
into the scratch, scan the minimum diagonal entry, seed `tau`, and run the
retry loop for `maxNewtonModifications` attempts.  Note that, unlike
`BFGS.NextDirection`, no dimension check is performed: `dim` is re-read
from `len(loc.X)` each call. -/
def Newton.NextDirection (nw : Newton) (loc : LocN) (dirBuf : List ℚ) :
    Option (Newton × NewtonOut) :=
  match minDiagGo (copySym nw.hess loc.Hessian) loc.X.length with
  | none => none
  | some minA =>
      match newtonLoop nw.Increase loc.Hessian loc.X.length loc.Gradient dirBuf
          (copySym nw.hess loc.Hessian) (seedTau nw.tau minA) maxNewtonModifications with
      | none => none
      | some (hessF, tauF, out) => some ({ nw with hess := hessF, tau := tauF }, out)

/-- Modelled from the spec: the `resizeSymDense` helper called by
`Newton.InitDirection` is not under `src/`; per spec §5 the buffer is grown
(freshly allocated, here zero-filled) when the requested size differs from
the current one, and reused unchanged when the size already matches. -/
def resizeSymQ (m : SymQ) (d : ℕ) : SymQ :=
  if m.dim = d then m else ⟨d, fun _ _ => 0⟩

/-- `Newton.InitDirection` (`newton.go` lines 80–86): resize the scratch
storage to `len(loc.X)`, reset `tau = 0`, and delegate to
`NextDirection`. -/
def Newton.InitDirection (nw : Newton) (loc : LocN) (dirBuf : List ℚ) :
    Option (Newton × NewtonOut) :=
  Newton.NextDirection
    { nw with hess := resizeSymQ nw.hess loc.X.length, tau := 0 } loc dirBuf

/-- The `Increase` validation at the top of `Newton.Init` (`newton.go`
lines 57–63): `Increase == 0` is defaulted to 5, then `Increase <= 1`
panics (`none`); otherwise the validated value is used unchanged. -/
def newtonInitCheck (increase : ℚ) : Option ℚ :=
  let increase := if increase = 0 then 5 else increase
  if increase ≤ 1 then none else some increase

/-- A fresh zero-value `Newton` with `Increase` already defaulted to 5 (as
`Newton.Init` leaves it): empty scratch, `tau = 0`. -/
def newtonFresh : Newton := ⟨5, ⟨0, fun _ _ => 0⟩, 0⟩

/-- A 2-dimensional `Location` whose Hessian `[[1, 10¹⁵], [10¹⁵, 1]]` has
positive diagonal but is so far from positive definite that all 20
regularization attempts fail. -/
def locBig2 : LocN :=
  ⟨[0, 0], [1, 1], ⟨2, fun i j => if i = j then 1 else 10 ^ 15⟩⟩

/-- A 1-dimensional `Location` (mismatching an established dimension of 2)
whose Hessian `[[-10³⁰]]` keeps every regularization attempt indefinite. -/
def locSmall1 : LocN :=
  ⟨[7], [5], ⟨1, fun _ _ => -(10 ^ 30)⟩⟩

/-- The scenario `Location`: Hessian `diag(-1, 2)` (gradient `[1, 1]`). -/
def locScen : LocN :=
  ⟨[0, 0], [1, 1], ⟨2, fun i j => if i ≠ j then 0 else if i = 0 then -1 else 2⟩⟩

/-- A 1-dimensional `Location` with positive-definite Hessian `[[2]]` and
gradient `[4]`, on which the first factorization attempt succeeds. -/
def locPd1 : LocN :=
  ⟨[0], [4], ⟨1, fun _ _ => 2⟩⟩

/-- A `Newton` state with 1-dimensional scratch and `tau = 0`. -/
def newtonPd1 : Newton := ⟨5, ⟨1, fun _ _ => 0⟩, 0⟩

/-- A `Newton` state with 1-dimensional scratch and a nonzero retained
`tau = 3`, used to exhibit the fallback path. -/
def newtonTau3 : Newton := ⟨5, ⟨1, fun _ _ => 0⟩, 3⟩

/-- A concrete BFGS state of established dimension 2 (used to exhibit the
dimension checks). -/
def bfgsl2 : BFGSL := ⟨2, ⟨![0, 0], ![0, 0], 0, true⟩⟩

/-- A concrete non-first BFGS state with symmetric `invHess`. -/
def bfgsSymTest : BFGSState 2 := ⟨![0, 0], ![0, 0], !![1, 2; 2, 3], false⟩

/-- A concrete 2-dimensional BFGS `Location`. -/
def locSymTest : LocB 2 := ⟨![1, 2], ![3, 4]⟩

/-- The quadratic-scenario `Location`: `f(x,y) = x² + 10y²` at `(1,1)` has
gradient `(2, 20)`. -/
def locQuad : LocB 2 := ⟨![1, 1], ![2, 20]⟩

/-- A 1-dimensional `Location` with an all-zero gradient. -/
def locZero1 : LocB 1 := ⟨![0], ![0]⟩

/-- Go's `copy` overwrites the whole destination when source and
destination have equal length. -/
theorem copyInto_eq_of_length (dst src : List ℚ) (h : dst.length = src.length) :
    copyInto dst src = src := by
  unfold copyInto
  rw [h, List.take_length]
  rw [show src.length = dst.length from h.symm, List.drop_length, List.append_nil]

/-- If the retry loop exits through the fallback branch and the direction
buffer has the gradient's length, the written direction is the negated
gradient and the step size is 1. -/
theorem newtonLoop_fallback_aux (inc : ℚ) (h : SymQ) (dim : ℕ) (g dirBuf : List ℚ)
    (hlen : dirBuf.length = g.length) (fuel : ℕ) :
    ∀ (hess : SymQ) (tau tauF tauS sc : ℚ) (hessF : SymQ) (dir : List ℚ),
    newtonLoop inc h dim g dirBuf hess tau fuel = some (hessF, tauF, NewtonOut.fallback tauS dir sc) →
    dir = g.map (fun v => -v) ∧ sc = 1 := by
  induction fuel with
  | zero =>
      intro hess tau tauF tauS sc hessF dir heq
      simp only [newtonLoop, Option.some.injEq, Prod.mk.injEq, NewtonOut.fallback.injEq] at heq
      obtain ⟨-, -, -, hdir, hsc⟩ := heq
      rw [← hdir, copyInto_eq_of_length _ _ hlen]
      exact ⟨rfl, hsc.symm⟩
  | succ fuel ih =>
      intro hess tau tauF tauS sc hessF dir heq
      simp only [newtonLoop] at heq
      split at heq
      · exact absurd heq (by simp)
      · split at heq
        · split at heq
          · exact absurd heq (by simp)
          · exact absurd heq (by simp)
        · exact ih _ _ _ _ _ _ _ heq

/-- The executable cofactor determinant agrees with Mathlib's
determinant on the leading block of an entry function. -/
theorem detFn_eq_det (d : ℕ) :
    ∀ e : ℕ → ℕ → ℚ, detFn e d = (Matrix.of fun i j : Fin d => e i j).det := by
  induction d with
  | zero => intro e; simp [detFn, Matrix.det_fin_zero]
  | succ d ih =>
      intro e
      have hval : ∀ (j : Fin (d + 1)) (b : Fin d),
          ((j.succAbove b : Fin (d + 1)) : ℕ)
            = if (b : ℕ) < (j : ℕ) then (b : ℕ) else (b : ℕ) + 1 := by
        intro j b
        unfold Fin.succAbove
        split
        · next hlt => rw [if_pos (by simpa [Fin.lt_def] using hlt)]; rfl
        · next hlt => rw [if_neg (by simpa [Fin.lt_def] using hlt)]; rfl
      rw [Matrix.det_succ_row_zero, detFn,
        ← Fin.sum_univ_eq_sum_range (fun j => (-1) ^ j * e 0 j * detFn (minorFn e j) d)]
      apply Finset.sum_congr rfl
      intro j _
      rw [ih (minorFn e (j : ℕ))]
      congr 1
      congr 1
      ext a b
      simp only [Matrix.of_apply, Matrix.submatrix_apply, minorFn, Fin.val_succ, hval j b]

/-- Reading `List.ofFn` through `getD` at an in-range index. -/
theorem getD_ofFn {n : ℕ} (f : Fin n → ℚ) (j : Fin n) :
    (List.ofFn f).getD (j : ℕ) 0 = f j := by
  rw [List.getD_eq_getElem _ _ (by simp [j.isLt])]
  simp

/-- `getD` with default 0 commutes with entrywise negation. -/
theorem getD_map_neg (l : List ℚ) (j : ℕ) :
    (l.map fun v => -v).getD j 0 = -(l.getD j 0) := by
  rcases Nat.lt_or_ge j l.length with hj | hj
  · rw [List.getD_eq_getElem _ _ (by simpa using hj), List.getD_eq_getElem _ _ hj]
    simp
  · rw [List.getD_eq_default _ _ (by simpa using hj), List.getD_eq_default _ _ hj]
    simp

/-- Soundness of the modelled Cholesky solve: when the factorization
succeeds (`choleskyOk`), the vector returned by `cholSolve` solves the
stored linear system. -/
theorem cholSolve_spec (m : SymQ) (g : List ℚ) (hok : choleskyOk m = true)
    (i : Fin m.dim) :
    ∑ j : Fin m.dim, m.entry i j * (cholSolve m g).getD j 0 = g.getD i 0 := by
  have hdet : (toMat m).det ≠ 0 := by
    have h1 := of_decide_eq_true hok
    have hpos : 0 < m.dim := i.pos
    have h2 := h1 ⟨m.dim - 1, by omega⟩
    have h3 : m.dim - 1 + 1 = m.dim := by omega
    rw [h3] at h2
    rw [detFn_eq_det m.dim m.entry] at h2
    exact ne_of_gt h2
  have hgv : ∀ j : Fin m.dim, (cholSolve m g).getD (j : ℕ) 0
      = (toMat m).det⁻¹ * (toMat m).adjugate.mulVec (fun k => g.getD (k : ℕ) 0) j := by
    intro j
    exact getD_ofFn _ j
  calc ∑ j : Fin m.dim, m.entry i j * (cholSolve m g).getD j 0
      = ∑ j : Fin m.dim, (toMat m).det⁻¹ *
          (m.entry i j * (toMat m).adjugate.mulVec (fun k => g.getD (k : ℕ) 0) j) := by
        apply Finset.sum_congr rfl
        intro j _
        rw [hgv j]
        show m.entry i j * _ = _
        ring
    _ = (toMat m).det⁻¹ *
          ((toMat m).mulVec ((toMat m).adjugate.mulVec (fun k => g.getD (k : ℕ) 0)) i) := by
        rw [← Finset.mul_sum]
        rfl
    _ = (toMat m).det⁻¹ *
          (((toMat m) * (toMat m).adjugate).mulVec (fun k => g.getD (k : ℕ) 0) i) := by
        rw [Matrix.mulVec_mulVec]
    _ = (toMat m).det⁻¹ *
          ((((toMat m).det) • (1 : Matrix (Fin m.dim) (Fin m.dim) ℚ)).mulVec
            (fun k => g.getD (k : ℕ) 0) i) := by
        rw [Matrix.mul_adjugate]
    _ = (toMat m).det⁻¹ * ((toMat m).det * g.getD (i : ℕ) 0) := by
        rw [Matrix.smul_mulVec_assoc, Matrix.one_mulVec]
        rfl
    _ = g.getD (i : ℕ) 0 := by field_simp

/-- `cholSolve_spec` restated with a `Finset.range` sum over natural
indices, which is insensitive to rewriting the stored size. -/
theorem cholSolve_spec_range (m : SymQ) (g : List ℚ) (hok : choleskyOk m = true)
    (i : ℕ) (hi : i < m.dim) :
    ∑ j in Finset.range m.dim, m.entry i j * (cholSolve m g).getD j 0 = g.getD i 0 := by
  rw [← Fin.sum_univ_eq_sum_range (fun j => m.entry i j * (cholSolve m g).getD j 0)]
  exact cholSolve_spec m g hok ⟨i, hi⟩

/-- If the retry loop exits through the success branch, the step size is 1
and the written direction solves `(H + tau·I) · dir = -g` with `H` the
original supplied Hessian and `tau` the regularizer current at the
successful attempt. -/
theorem newtonLoop_solved_aux (inc : ℚ) (h : SymQ) (dim : ℕ) (g dirBuf : List ℚ)
    (hhdim : h.dim = dim) (fuel : ℕ) :
    ∀ (hess : SymQ) (tau tauF tauS sc : ℚ) (hessF : SymQ) (dir : List ℚ),
    hess.dim = dim →
    (∀ i j, i < dim → j < dim → i ≠ j → hess.entry i j = h.entry i j) →
    (tau = 0 → ∀ i, i < dim → hess.entry i i = h.entry i i) →
    newtonLoop inc h dim g dirBuf hess tau fuel = some (hessF, tauF, NewtonOut.solved tauS dir sc) →
    sc = 1 ∧ dir.length = dim ∧
      (Matrix.of fun i j : Fin dim => h.entry i j + if (i : ℕ) = (j : ℕ) then tauS else 0).mulVec
          (fun j => dir.getD j 0) = fun i : Fin dim => -(g.getD (i : ℕ) 0) := by
  induction fuel with
  | zero =>
      intro hess tau tauF tauS sc hessF dir _ _ _ heq
      simp only [newtonLoop] at heq
      exact absurd heq (by simp)
  | succ fuel ih =>
      intro hess tau tauF tauS sc hessF dir hdim hoff hdiag heq
      simp only [newtonLoop] at heq
      split at heq
      · exact absurd heq (by simp)
      · next hess1 hsome =>
          have hfacts : hess1.dim = dim ∧
              (∀ i j, i < dim → j < dim → i ≠ j → hess1.entry i j = h.entry i j) ∧
              (∀ i, i < dim → hess1.entry i i = h.entry i i + tau) := by
            by_cases htau : tau = 0
            · rw [if_pos htau] at hsome
              obtain rfl := Option.some.inj hsome
              refine ⟨hdim, hoff, ?_⟩
              intro i hi
              rw [htau, add_zero]
              exact hdiag htau i hi
            · rw [if_neg htau] at hsome
              rw [setDiagGo, if_pos ⟨hhdim.ge, hdim.ge⟩] at hsome
              obtain rfl := Option.some.inj hsome
              refine ⟨hdim, ?_, ?_⟩
              · intro i j hi hj hne
                simp only [hne, false_and, if_false]
                exact hoff i j hi hj hne
              · intro i hi
                simp [hi]
          obtain ⟨hd1, hoff1, hdiag1⟩ := hfacts
          split at heq
          · next hok =>
              split at heq
              · next hcond =>
                  obtain ⟨hbuf, hglen, hdim1⟩ := hcond
                  simp only [Option.some.injEq, Prod.mk.injEq, NewtonOut.solved.injEq] at heq
                  obtain ⟨-, -, htauS, hdir, hsc⟩ := heq
                  have hstep : ∀ i j : Fin dim,
                      h.entry (i : ℕ) (j : ℕ) + (if (i : ℕ) = (j : ℕ) then tauS else 0)
                        = hess1.entry (i : ℕ) (j : ℕ) := by
                    intro i j
                    by_cases hij : (i : ℕ) = (j : ℕ)
                    · rw [if_pos hij, ← hij, hdiag1 (i : ℕ) i.isLt, ← htauS]
                    · rw [if_neg hij, add_zero]
                      exact (hoff1 (i : ℕ) (j : ℕ) i.isLt j.isLt hij).symm
                  refine ⟨hsc.symm, ?_, ?_⟩
                  · rw [← hdir]
                    simp [cholSolve, hdim1]
                  · funext i
                    show (∑ j : Fin dim, _ * _) = _
                    calc ∑ j : Fin dim,
                          (h.entry (i : ℕ) (j : ℕ) + if (i : ℕ) = (j : ℕ) then tauS else 0) *
                            dir.getD (j : ℕ) 0
                        = ∑ j : Fin dim,
                            -(hess1.entry (i : ℕ) (j : ℕ) * (cholSolve hess1 g).getD (j : ℕ) 0) := by
                          apply Finset.sum_congr rfl
                          intro j _
                          rw [hstep i j, ← hdir, getD_map_neg]
                          ring
                      _ = -(∑ j in Finset.range dim,
                            hess1.entry (i : ℕ) j * (cholSolve hess1 g).getD j 0) := by
                          rw [← Finset.sum_neg_distrib,
                            Fin.sum_univ_eq_sum_range
                              (fun j => -(hess1.entry (i : ℕ) j * (cholSolve hess1 g).getD j 0))]
                      _ = -(g.getD (i : ℕ) 0) := by
                          have hsp := cholSolve_spec_range hess1 g hok (i : ℕ)
                            (by rw [hd1]; exact i.isLt)
                          rw [hd1] at hsp
                          rw [hsp]
              · exact absurd heq (by simp)
          · next hok =>
              refine ih hess1 _ _ _ _ _ _ hd1 hoff1 ?_ heq
              intro habs
              have hmax : (1 : ℚ) / 1000 ≤ max (inc * tau) (1 / 1000) := le_max_right _ _
              rw [habs] at hmax
              norm_num at hmax

/-- C1 counterexample: a `Newton.NextDirection` call whose buffers have
length 1 while the dimension established by the preceding `InitDirection`
is 2 does not fail: it runs to completion and silently returns the
fallback direction `[-5]` (the negated 1-dimensional gradient) with step
size 1. -/
theorem newton_mismatched_call_completes_silently :
    locBig2.X.length = 2 ∧ locSmall1.X.length = 1 ∧
    ((Newton.InitDirection newtonFresh locBig2 [0, 0]).bind
        (fun p => Newton.NextDirection p.1 locSmall1 [0])).map (fun p => p.2)
      = some (NewtonOut.fallback ((5 : ℚ) ^ 39 / 1000) [-5] 1) :=
  ⟨rfl, rfl, by decide⟩

/-- C1 (amended): `BFGS.NextDirection` panics (`none`) whenever any of the
position, gradient or direction buffers has a length different from the
established dimension; `Newton.NextDirection`, by contrast, performs no
dimension check, and a mismatched call can run to completion and return
normally (exhibited on the concrete mismatched call of dimension 1 against
an established dimension of 2). -/
theorem dimension_mismatch_bfgs_panics_newton_does_not :
    (∀ (b : BFGSL) (x g dirBuf : List ℚ),
        x.length ≠ b.dim ∨ g.length ≠ b.dim ∨ dirBuf.length ≠ b.dim →
        bfgsNextDirectionChecked b x g dirBuf = none) ∧
    locBig2.X.length = 2 ∧ locSmall1.X.length = 1 ∧
    ((Newton.InitDirection newtonFresh locBig2 [0, 0]).bind
        (fun p => Newton.NextDirection p.1 locSmall1 [0])).map (fun p => p.2)
      = some (NewtonOut.fallback ((5 : ℚ) ^ 39 / 1000) [-5] 1) := by
  refine ⟨?_, rfl, rfl, by decide⟩
  intro b x g dirBuf h
  unfold bfgsNextDirectionChecked
  rcases h with h | h | h
  · rw [dif_neg h]
  · by_cases hx : x.length = b.dim
    · rw [dif_pos hx, dif_neg h]
    · rw [dif_neg hx]
  · by_cases hx : x.length = b.dim
    · rw [dif_pos hx]
      by_cases hg : g.length = b.dim
      · rw [dif_pos hg, if_neg h]
      · rw [dif_neg hg]
    · rw [dif_neg hx]

/-- Witness for C1: the BFGS dimension check rejects a concrete length-1
call against an established dimension of 2. -/
theorem dimension_mismatch_bfgs_panics_newton_does_not_witness :
    (([9] : List ℚ).length ≠ bfgsl2.dim ∨ ([9] : List ℚ).length ≠ bfgsl2.dim ∨
      ([9] : List ℚ).length ≠ bfgsl2.dim) ∧
    bfgsNextDirectionChecked bfgsl2 [9] [9] [9] = none :=
  ⟨Or.inl (by decide),
    dimension_mismatch_bfgs_panics_newton_does_not.1 bfgsl2 [9] [9] [9] (Or.inl (by decide))⟩

/-- C2: for every symmetric matrix `B` and vectors `s`, `y` with
`s·y ≠ 0`, the rank-two update with coefficient `-1/(s·y)` on `t = B·y`
and `s` followed by the rank-one update with coefficient
`(s·y + yᵀBy)/(s·y)²` on `s` — the composition `BFGS.NextDirection`
performs — equals the standard BFGS inverse update
`B − (B y sᵀ + s yᵀ B)/sᵀy + (1 + yᵀB y/sᵀy)(s sᵀ)/sᵀy`. -/
theorem bfgs_two_step_update_eq_standard_formula {n : ℕ}
    (b : Matrix (Fin n) (Fin n) ℚ) (s y : Fin n → ℚ)
    (hb : ∀ i j, b i j = b j i) (hsy : Matrix.dotProduct s y ≠ 0) :
    symRankOne (rankTwo b (-1 / Matrix.dotProduct s y) (b.mulVec y) s)
      ((Matrix.dotProduct s y + matInner y b y) /
        (Matrix.dotProduct s y * Matrix.dotProduct s y)) s
    = bfgsSpecUpdate b s y := by
  have hv : ∀ j, Matrix.vecMul y b j = b.mulVec y j := by
    intro j
    simp only [Matrix.vecMul, Matrix.mulVec, Matrix.dotProduct]
    exact Finset.sum_congr rfl fun k _ => by rw [hb k j]; ring
  ext i j
  simp only [symRankOne, rankTwo, bfgsSpecUpdate, Matrix.of_apply, Matrix.sub_apply,
    Matrix.add_apply, Matrix.smul_apply, Matrix.vecMulVec_apply, smul_eq_mul, hv]
  field_simp
  ring

/-- Witness for C2: the update identity evaluated at the identity matrix
with `s = y = (1, 0)` (so `s·y = 1 ≠ 0`). -/
theorem bfgs_two_step_update_eq_standard_formula_witness :
    (∀ i j, (1 : Matrix (Fin 2) (Fin 2) ℚ) i j = (1 : Matrix (Fin 2) (Fin 2) ℚ) j i) ∧
    Matrix.dotProduct (![1, 0] : Fin 2 → ℚ) ![1, 0] ≠ 0 ∧
    symRankOne
      (rankTwo (1 : Matrix (Fin 2) (Fin 2) ℚ)
        (-1 / Matrix.dotProduct (![1, 0] : Fin 2 → ℚ) ![1, 0])
        ((1 : Matrix (Fin 2) (Fin 2) ℚ).mulVec ![1, 0]) ![1, 0])
      ((Matrix.dotProduct (![1, 0] : Fin 2 → ℚ) ![1, 0] +
          matInner (![1, 0] : Fin 2 → ℚ) 1 ![1, 0]) /
        (Matrix.dotProduct (![1, 0] : Fin 2 → ℚ) ![1, 0] *
          Matrix.dotProduct (![1, 0] : Fin 2 → ℚ) ![1, 0]))
      ![1, 0]
    = bfgsSpecUpdate 1 ![1, 0] ![1, 0] :=
  ⟨by decide, by decide,
    bfgs_two_step_update_eq_standard_formula 1 ![1, 0] ![1, 0] (by decide) (by decide)⟩

/-- C3: after every `BFGS.NextDirection` call the stored inverse-Hessian
approximation is exactly symmetric — the scaled-identity overwrite on the
first call makes it symmetric, and when the incoming `invHess` is
symmetric both rank updates preserve symmetry. -/
theorem bfgs_invHess_symmetric_after_nextDirection {n : ℕ} (b : BFGSState n) (loc : LocB n)
    (h : b.first = true ∨ ∀ i j, b.invHess i j = b.invHess j i) :
    ∀ i j, (bfgsNextDirection b loc).1.invHess i j
      = (bfgsNextDirection b loc).1.invHess j i := by
  intro i j
  simp only [bfgsNextDirection, symRankOne, rankTwo, Matrix.of_apply]
  cases hf : b.first with
  | false =>
      have hsym := h.resolve_left (by simp [hf])
      simp only [Bool.false_eq_true, if_false]
      rw [hsym i j]
      ring
  | true =>
      simp only [if_true, Matrix.of_apply]
      by_cases hij : i = j
      · subst hij; ring
      · rw [if_neg hij, if_neg fun hh => hij hh.symm]
        ring

/-- Witness for C3: symmetry of the updated `invHess` on a concrete
non-first state. -/
theorem bfgs_invHess_symmetric_after_nextDirection_witness :
    (bfgsSymTest.first = true ∨ ∀ i j, bfgsSymTest.invHess i j = bfgsSymTest.invHess j i) ∧
    (bfgsNextDirection bfgsSymTest locSymTest).1.invHess 0 1
      = (bfgsNextDirection bfgsSymTest locSymTest).1.invHess 1 0 :=
  ⟨Or.inr (by decide),
    bfgs_invHess_symmetric_after_nextDirection bfgsSymTest locSymTest (Or.inr (by decide)) 0 1⟩

/-- C4: at the start of every `Newton.NextDirection` call the regularizer
is seeded per `seedTau`: `minA > 0` sets it to 0; otherwise a zero `tau`
is seeded to `-minA + 0.001` and a nonzero `tau` is retained.  On the
first call after a reset with Hessian `diag(-1, 2)`: the diagonal scan
yields `minA = -1`, `tau` is seeded to `1.001`, the first trial matrix is
`diag(0.001, 3.001)` whose factorization succeeds, and the call returns
through the success path at `tau = 1.001` with step size 1 (no retries). -/
theorem newton_tau_seeding_rule_and_scenario :
    (∀ tau minA : ℚ, 0 < minA → seedTau tau minA = 0) ∧
    (∀ minA : ℚ, ¬0 < minA → seedTau 0 minA = -minA + 1 / 1000) ∧
    (∀ tau minA : ℚ, ¬0 < minA → tau ≠ 0 → seedTau tau minA = tau) ∧
    minDiagGo (copySym (resizeSymQ newtonFresh.hess 2) locScen.Hessian) 2 = some (-1) ∧
    seedTau 0 (-1) = 1001 / 1000 ∧
    (setDiagGo (copySym (resizeSymQ newtonFresh.hess 2) locScen.Hessian) locScen.Hessian 2
        (1001 / 1000)).map
      (fun t => (t.entry 0 0, t.entry 0 1, t.entry 1 0, t.entry 1 1, choleskyOk t))
      = some (1 / 1000, 0, 0, 3001 / 1000, true) ∧
    (Newton.InitDirection newtonFresh locScen [0, 0]).map
      (fun p => (p.1.tau, p.2.isSolved, p.2.stepTau, p.2.scaleOf))
      = some (1001 / 1000, true, 1001 / 1000, 1) := by
  refine ⟨?_, ?_, ?_, by decide, by decide, by decide, by decide⟩
  · intro tau minA h
    simp [seedTau, h]
  · intro minA h
    simp [seedTau, h]
  · intro tau minA h1 h2
    simp [seedTau, h1, h2]

/-- Witness for C4: the retention branch of the seeding rule at a concrete
negative `minA` and nonzero retained `tau`. -/
theorem newton_tau_seeding_rule_and_scenario_witness :
    ¬(0 : ℚ) < -2 ∧ (7 : ℚ) ≠ 0 ∧ seedTau 7 (-2) = 7 :=
  ⟨by norm_num, by norm_num,
    newton_tau_seeding_rule_and_scenario.2.2.1 7 (-2) (by norm_num) (by norm_num)⟩

/-- C5: whenever a `Newton.NextDirection` call (with buffers of the
matched dimension) returns through the success path, the step size is 1
and the returned direction satisfies `(Hessian + tau·I) · dir = -gradient`
for the `tau` current at the successful attempt, where the trial matrix is
the original supplied Hessian with only its diagonal perturbed
(recomputed from `loc.Hessian` each attempt, not accumulated). -/
theorem newton_solved_direction_solves_regularized_system
    (nw : Newton) (loc : LocN) (dirBuf : List ℚ)
    (hsd : nw.hess.dim = loc.X.length)
    (hhd : loc.Hessian.dim = loc.X.length)
    (tauS sc : ℚ) (dir : List ℚ)
    (heq : (Newton.NextDirection nw loc dirBuf).map (fun p => p.2)
      = some (NewtonOut.solved tauS dir sc)) :
    sc = 1 ∧ dir.length = loc.X.length ∧
    (Matrix.of fun i j : Fin loc.X.length =>
        loc.Hessian.entry i j + if (i : ℕ) = (j : ℕ) then tauS else 0).mulVec
        (fun j => dir.getD j 0)
      = fun i : Fin loc.X.length => -(loc.Gradient.getD (i : ℕ) 0) := by
  have hmin : min nw.hess.dim loc.Hessian.dim = loc.X.length := by
    rw [hsd, hhd, min_self]
  unfold Newton.NextDirection at heq
  split at heq
  · exact absurd heq (by simp)
  · split at heq
    · exact absurd heq (by simp)
    · next hessF tauF out hloop =>
        simp only [Option.map_some', Option.some.injEq] at heq
        subst heq
        refine newtonLoop_solved_aux nw.Increase loc.Hessian loc.X.length loc.Gradient dirBuf
          hhd maxNewtonModifications (copySym nw.hess loc.Hessian) _ _ _ _ _ _ ?_ ?_ ?_ hloop
        · show (copySym nw.hess loc.Hessian).dim = loc.X.length
          exact hsd
        · intro i j hi hj _
          show (copySym nw.hess loc.Hessian).entry i j = loc.Hessian.entry i j
          simp only [copySym]
          rw [if_pos ⟨by rw [hmin]; exact hi, by rw [hmin]; exact hj⟩]
        · intro _ i hi
          show (copySym nw.hess loc.Hessian).entry i i = loc.Hessian.entry i i
          simp only [copySym]
          rw [if_pos ⟨by rw [hmin]; exact hi, by rw [hmin]; exact hi⟩]

/-- Witness for C5: on the 1-dimensional call with Hessian `[[2]]` and
gradient `[4]` the strategy succeeds at `tau = 0` with direction `[-2]`,
and `(2 + 0)·(-2) = -4` indeed solves the system. -/
theorem newton_solved_direction_solves_regularized_system_witness :
    newtonPd1.hess.dim = locPd1.X.length ∧
    locPd1.Hessian.dim = locPd1.X.length ∧
    (Newton.NextDirection newtonPd1 locPd1 [0]).map (fun p => p.2)
      = some (NewtonOut.solved 0 [-2] 1) ∧
    ((1 : ℚ) = 1 ∧ ([-2] : List ℚ).length = locPd1.X.length ∧
      (Matrix.of fun i j : Fin locPd1.X.length =>
          locPd1.Hessian.entry i j + if (i : ℕ) = (j : ℕ) then (0 : ℚ) else 0).mulVec
          (fun j => ([-2] : List ℚ).getD j 0)
        = fun i : Fin locPd1.X.length => -(locPd1.Gradient.getD (i : ℕ) 0)) :=
  ⟨rfl, rfl, by decide,
    newton_solved_direction_solves_regularized_system newtonPd1 locPd1 [0] rfl rfl 0 1 [-2]
      (by decide)⟩

/-- C6: if a `Newton.NextDirection` call exits through the fallback path
(all `maxNewtonModifications = 20` factorization attempts failed, with
`tau` updated between attempts by `max(Increase·tau, 0.001)` as in
`newtonLoop`), then — the direction buffer having the gradient's length —
the returned direction is the exact negated gradient, the step size is 1,
and the call returns normally (`some`), surfacing no error. -/
theorem newton_exhausted_attempts_fallback_negative_gradient
    (nw : Newton) (loc : LocN) (dirBuf : List ℚ)
    (hlen : dirBuf.length = loc.Gradient.length)
    (tauS sc : ℚ) (dir : List ℚ)
    (heq : (Newton.NextDirection nw loc dirBuf).map (fun p => p.2)
      = some (NewtonOut.fallback tauS dir sc)) :
    dir = loc.Gradient.map (fun v => -v) ∧ sc = 1 := by
  unfold Newton.NextDirection at heq
  split at heq
  · exact absurd heq (by simp)
  · split at heq
    · exact absurd heq (by simp)
    · next hessF tauF out hloop =>
        simp only [Option.map_some', Option.some.injEq] at heq
        subst heq
        exact newtonLoop_fallback_aux _ _ _ _ _ hlen _ _ _ _ _ _ _ _ hloop

/-- Witness for C6: with retained `tau = 3` and Hessian `[[-10³⁰]]` all 20
attempts fail, and the call returns the negated gradient `[-5]` with step
size 1 and final `tau = 3·5²⁰`. -/
theorem newton_exhausted_attempts_fallback_negative_gradient_witness :
    ([0] : List ℚ).length = locSmall1.Gradient.length ∧
    (Newton.NextDirection newtonTau3 locSmall1 [0]).map (fun p => p.2)
      = some (NewtonOut.fallback (3 * 5 ^ 20) [-5] 1) ∧
    (([-5] : List ℚ) = locSmall1.Gradient.map (fun v => -v) ∧ (1 : ℚ) = 1) :=
  ⟨rfl, by decide,
    newton_exhausted_attempts_fallback_negative_gradient newtonTau3 locSmall1 [0] rfl
      (3 * 5 ^ 20) 1 [-5] (by decide)⟩

/-- C7: the `Increase` validation of `Newton.Init`: an unset (zero)
`Increase` defaults to 5; any configured nonzero `Increase ≤ 1` panics
immediately (`none`); and any `Increase > 1` is used unchanged (never
clamped). -/
theorem newton_increase_default_and_fatal_validation :
    newtonInitCheck 0 = some 5 ∧
    (∀ c : ℚ, c ≠ 0 → c ≤ 1 → newtonInitCheck c = none) ∧
    (∀ c : ℚ, 1 < c → newtonInitCheck c = some c) := by
  refine ⟨by decide, ?_, ?_⟩
  · intro c h1 h2
    simp [newtonInitCheck, h1, h2]
  · intro c h
    have h0 : c ≠ 0 := by intro h0; rw [h0] at h; norm_num at h
    simp [newtonInitCheck, h0, not_le.mpr h]

/-- Witness for C7: `Increase = 1/2` is a fatal configuration error. -/
theorem newton_increase_default_and_fatal_validation_witness :
    ((1 : ℚ) / 2 ≠ 0) ∧ ((1 : ℚ) / 2 ≤ 1) ∧ newtonInitCheck (1 / 2) = none :=
  ⟨by norm_num, by norm_num,
    newton_increase_default_and_fatal_validation.2.1 (1 / 2) (by norm_num) (by norm_num)⟩

/-- C8: `BFGS.InitDirection` caches the supplied position and gradient,
sets `first`, writes `dir = -gradient`, and returns `1/‖dir‖₂`, which
equals the reciprocal Euclidean norm of the gradient. -/
theorem bfgs_initDirection_functional_spec {n : ℕ} (loc : LocB n) :
    (bfgsInitDirection loc).1.x = loc.X ∧
    (bfgsInitDirection loc).1.grad = loc.Gradient ∧
    (bfgsInitDirection loc).1.first = true ∧
    (bfgsInitDirection loc).2.1 = (fun i => -loc.Gradient i) ∧
    (bfgsInitDirection loc).2.2 = 1 / Real.sqrt ((sumSq loc.Gradient : ℚ) : ℝ) := by
  refine ⟨rfl, rfl, rfl, rfl, ?_⟩
  have h : sumSq (fun i => -loc.Gradient i) = sumSq loc.Gradient := by simp [sumSq]
  simp [bfgsInitDirection, norm2, h]

/-- C9 counterexample: on `f(x,y) = x² + 10y²` at `(1,1)` the gradient is
`(2, 20)`, so the first direction written by `BFGS.InitDirection` is
`(-2, -20)`, not `(-1, -1)`. -/
theorem bfgs_scenario_first_direction_not_neg_one_one :
    (bfgsInitDirection locQuad).2.1 ≠ ![-1, -1] := by
  decide

/-- C9 (amended): on `f(x,y) = x² + 10y²` at `(1,1)` the first direction
produced by `BFGS.InitDirection` equals `-gradient = (-2, -20)` and the
returned step scale equals `1/‖(-2, -20)‖₂ = 1/√404`. -/
theorem bfgs_scenario_first_direction_amended :
    (bfgsInitDirection locQuad).2.1 = ![-2, -20] ∧
    (bfgsInitDirection locQuad).2.2 = 1 / Real.sqrt 404 := by
  constructor
  · decide
  · show (1 : ℝ) / norm2 _ = _
    norm_num [norm2, sumSq, Fin.sum_univ_two, locQuad]

/-- C10: `BFGS.InitDirection` does not guard the step-scale division: with
an all-zero gradient (any dimension `n ≥ 1`) it writes `dir = 0` and
returns the unguarded quotient `1/0` — the norm in the denominator is
exactly `0` (in IEEE float64 arithmetic this quotient is `+Inf`; the
exact-arithmetic model shows that no guard intervenes and the division by
zero is taken). -/
theorem bfgs_zero_gradient_unguarded_division {n : ℕ} (_hn : 1 ≤ n) (loc : LocB n)
    (hg : loc.Gradient = 0) :
    (bfgsInitDirection loc).2.1 = 0 ∧
    norm2 (fun i => -loc.Gradient i) = 0 ∧
    (bfgsInitDirection loc).2.2 = 1 / (0 : ℝ) := by
  refine ⟨?_, ?_, ?_⟩
  · funext i
    simp [bfgsInitDirection, hg]
  · rw [hg]
    norm_num [norm2, sumSq]
  · show (1 : ℝ) / norm2 _ = _
    rw [hg]
    norm_num [norm2, sumSq]

/-- Witness for C10: the zero-gradient call in dimension 1. -/
theorem bfgs_zero_gradient_unguarded_division_witness :
    (1 ≤ 1) ∧ (locZero1.Gradient = 0) ∧
    ((bfgsInitDirection locZero1).2.1 = 0 ∧
      norm2 (fun i => -locZero1.Gradient i) = 0 ∧
      (bfgsInitDirection locZero1).2.2 = 1 / (0 : ℝ)) :=
  ⟨le_refl 1, by decide, bfgs_zero_gradient_unguarded_division (le_refl 1) locZero1 (by decide)⟩
